import Mathlib

/-!
Verification development for the tool-name resolver of
`src/node/src/node/tools/custom_tools.py`.

The resolver is a `dict` subclass whose `__getitem__` tries, in order:
exact key match, a lookup of the NFKC/whitespace-normalized request in a
precomputed normalized index, and finally a fuzzy suggestion computed by
`difflib.get_close_matches` (n = 1, cutoff = 0.6) before raising `KeyError`.

Strings are embedded as Lean `String` (a list of Unicode scalar values,
matching Python `str` as a sequence of code points).  Python library
functions used by the source (`unicodedata.normalize("NFKC", ·)`,
`str.isspace`, `str.strip`, `difflib`) are embedded from their documented
semantics, restricted where noted to the character set this development
exercises.
-/

set_option maxRecDepth 100000

namespace NodeTools

/-- Python `str.isspace`, per character: true exactly for the Unicode
whitespace code points (ASCII control whitespace, U+001C–U+001F, space,
U+0085, U+00A0, U+1680, U+2000–U+200A, U+2028, U+2029, U+202F, U+205F,
U+3000). -/
def pyIsSpace (c : Char) : Bool :=
  ([9, 10, 11, 12, 13, 28, 29, 30, 31, 32, 0x85, 0xA0, 0x1680,
    0x2000, 0x2001, 0x2002, 0x2003, 0x2004, 0x2005, 0x2006, 0x2007,
    0x2008, 0x2009, 0x200A, 0x2028, 0x2029, 0x202F, 0x205F, 0x3000] : List Nat).contains c.toNat

/-- Unicode NFKC normalization of a single character, i.e. the NFKC
expansion of `c`.  This embeds `unicodedata.normalize("NFKC", ·)`
restricted to the characters this development exercises: on ASCII it is
the identity; the compatibility whitespace characters U+00A0, U+2000–U+200A,
U+202F, U+205F and U+3000 normalize to an ASCII space; U+FB01 (the ﬁ
ligature, used as a sample compatibility character) expands to "fi".
None of these characters takes part in multi-character canonical
composition, so on strings over this character set NFKC acts
character-wise. -/
def nfkcChar (c : Char) : List Char :=
  if c.toNat = 0xA0 ∨ (0x2000 ≤ c.toNat ∧ c.toNat ≤ 0x200A) ∨
     c.toNat = 0x202F ∨ c.toNat = 0x205F ∨ c.toNat = 0x3000 then [' ']
  else if c.toNat = 0xFB01 then ['f', 'i']
  else [c]

/-- NFKC normalization of a string (as a list of characters): the
concatenation of the character-wise NFKC expansions. -/
def nfkcStr (l : List Char) : List Char :=
  (l.map nfkcChar).flatten

/-- The whitespace pass of `_normalize`:
`"".join(ch if not ch.isspace() else " " for ch in name)` — every
whitespace character is replaced by one ASCII space, character by
character (runs of whitespace are not merged). -/
def replaceWs (l : List Char) : List Char :=
  l.map (fun ch => if pyIsSpace ch then ' ' else ch)

/-- Python `str.strip()` (no argument): remove leading and trailing
whitespace characters. -/
def pyStrip (l : List Char) : List Char :=
  ((l.dropWhile pyIsSpace).reverse.dropWhile pyIsSpace).reverse

/-- The string case of `_normalize` from `custom_tools.py`:
NFKC-normalize, replace each whitespace character by an ASCII space, and
strip both ends.  (The non-string guard `isinstance(name, str)` lives in
`normalizeKey` below.) -/
def pyNormalize (s : String) : String :=
  String.mk (pyStrip (replaceWs (nfkcStr s.data)))

/-- The tool classes registered by `custom_tools.py`.  The two `Dummy`
tags are the placeholder classes `_ESMDummy` / `_NativeDummy` that the
module substitutes when the optional import of the corresponding real
tool module fails. -/
inductive ToolClass where
  | nodeCodeAnalyzer
  | dependencyAnalyzer
  | watchdogServiceAnalyzer
  | securityScanner
  | testGenerator
  | nodeVersionMigrator
  | esmMigrationTool
  | esmDummy
  | nativeModuleMigrator
  | nativeDummy
deriving DecidableEq, Repr

/-- The `tool_functions` registry: an insertion-ordered map from canonical
display name to the registered factory.  A factory `_ctor(cls)` is
`lambda: cls()`, which is determined by `cls`; factories are therefore
embedded as their `ToolClass` tag.  `esmImportOk` / `nativeImportOk`
record whether the optional imports of `esm_migration_tool` /
`native_module_migrator` succeeded; on failure the module substitutes the
placeholder class.  The source guards `if ESMMigrationTool is not None`
are always true (both branches of each try/except bind a class), so both
optional entries are always appended. -/
def tool_functions (esmImportOk nativeImportOk : Bool) : List (String × ToolClass) :=
  [("Node Code Analyzer", ToolClass.nodeCodeAnalyzer),
   ("Dependency Analyzer", ToolClass.dependencyAnalyzer),
   ("Watchdog Service Analyzer", ToolClass.watchdogServiceAnalyzer),
   ("Security Scanner", ToolClass.securityScanner),
   ("Test Generator", ToolClass.testGenerator),
   ("Node Version Migrator", ToolClass.nodeVersionMigrator),
   ("ESM Migration Tool", if esmImportOk then ToolClass.esmMigrationTool else ToolClass.esmDummy),
   ("Native Module Migrator", if nativeImportOk then ToolClass.nativeModuleMigrator else ToolClass.nativeDummy)]

/-- Python `dict` lookup returning `None` on a miss (`d.get(k)`), embedded
over an association list with unique keys. -/
def dictGet? {α : Type} (d : List (String × α)) (k : String) : Option α :=
  match d with
  | [] => none
  | (k', v) :: rest => if k' = k then some v else dictGet? rest k

/-- Python `d[k] = v` on a `dict` embedded as an association list:
overwrite in place when the key is present, append otherwise. -/
def dictInsert (d : List (String × String)) (k v : String) : List (String × String) :=
  if (d.map Prod.fst).contains k then
    d.map (fun p => if p.1 = k then (k, v) else p)
  else d ++ [(k, v)]

/-- The dict comprehension
`_normalized_index = { _normalize(k): k for k in tool_functions.keys() }`. -/
def buildNormalizedIndex (ks : List String) : List (String × String) :=
  ks.foldl (fun d k => dictInsert d (pyNormalize k) k) []

/-- The module-level `_normalized_index`, built once from the canonical
keys of `tool_functions`. -/
def normalized_index (esmImportOk nativeImportOk : Bool) : List (String × String) :=
  buildNormalizedIndex ((tool_functions esmImportOk nativeImportOk).map Prod.fst)

/-- The registry as shipped: both optional tool modules are present under
`src/node/src/node/tools/`, so both imports succeed. -/
def tool_functions_live : List (String × ToolClass) :=
  tool_functions true true

/-- The shipped `_normalized_index`. -/
def normalized_index_live : List (String × String) :=
  normalized_index true true

/-!
Embedding of `difflib.SequenceMatcher` / `difflib.get_close_matches` from
the CPython standard library, as used by the resolver's fuzzy-suggestion
path.  The matcher is instantiated with `isjunk = None`, and `b` (the
normalized request) shorter than the autojunk threshold of 200 characters
whenever a candidate can clear the 0.6 cutoff (a candidate key has at
most 25 characters, so `2*M/(len(a)+len(b)) < 0.6` forces `len(b) < 84`);
hence the junk sets are empty on every run that influences the result,
and the junk-extension passes of `find_longest_match` are identities.
-/

/-- The `b2j` occurrence table of `SequenceMatcher.set_seq2`: the ascending
list of positions of `c` in `b`. -/
def b2jOf (b : List Char) (c : Char) : List Nat :=
  (List.range b.length).filter (fun j => b.get? j == some c)

/-- Bounds-checked character comparison `a[i] == b[j]` (every use is
in range). -/
def chEq (a b : List Char) (i j : Nat) : Bool :=
  match a.get? i, b.get? j with
  | some x, some y => x == y
  | _, _ => false

/-- The inner loop of `find_longest_match`: for each occurrence `j` of
`a[i]` in `b` (ascending), skip `j < blo` (`continue`), stop at
`j ≥ bhi` (`break`), and otherwise extend the run ending at `(i, j)`:
`k = newj2len[j] = j2len.get(j-1, 0) + 1`, updating the best block when
`k > bestsize` (so the first block reaching a given size wins).  Python's
`j2len.get(j-1, 0)` at `j = 0` asks for key `-1`, which is never present,
hence the explicit `j = 0` case.  `best` is `(besti, bestj, bestsize)`;
Python's `i-k+1` / `j-k+1` are written `i+1-k` / `j+1-k`, equal over the
integers and correct over `Nat` since a run ending at `(i, j)` has
`k ≤ i+1` and `k ≤ j+1`. -/
def flmInner (blo bhi : Nat) (j2lenOld : Nat → Nat) (i : Nat) :
    List Nat → (Nat → Nat) → Nat × Nat × Nat → (Nat → Nat) × (Nat × Nat × Nat)
  | [], newj2len, best => (newj2len, best)
  | j :: js, newj2len, best =>
    if j < blo then flmInner blo bhi j2lenOld i js newj2len best
    else if bhi ≤ j then (newj2len, best)
    else
      let k := (if j = 0 then 0 else j2lenOld (j - 1)) + 1
      let newj2len' := fun j' => if j' = j then k else newj2len j'
      let best' := if best.2.2 < k then (i + 1 - k, j + 1 - k, k) else best
      flmInner blo bhi j2lenOld i js newj2len' best'

/-- The outer loop of `find_longest_match` over `i in range(alo, ahi)`:
each step starts a fresh `newj2len`, runs the inner loop over
`b2j.get(a[i], [])`, and rolls `j2len` over. -/
def flmLoop (a : List Char) (bj : Char → List Nat) (blo bhi : Nat) :
    List Nat → (Nat → Nat) × (Nat × Nat × Nat) → (Nat → Nat) × (Nat × Nat × Nat)
  | [], st => st
  | i :: is, st =>
    let st' := flmInner blo bhi st.1 i (bj (a.getD i ' ')) (fun _ => 0) st.2
    flmLoop a bj blo bhi is st'

/-- The first extension pass of `find_longest_match`:
`while besti > alo and bestj > blo and a[besti-1] == b[bestj-1]`, with the
empty junk set.  `fuel` bounds the iteration count; it is called with
`fuel = besti`, and each iteration decreases `besti` by one while keeping
`besti > alo ≥ 0`, so the fuel never runs out before the condition
fails. -/
def extendLeft (a b : List Char) (alo blo : Nat) :
    Nat → Nat × Nat × Nat → Nat × Nat × Nat
  | 0, best => best
  | fuel + 1, (besti, bestj, bestsize) =>
    if alo < besti ∧ blo < bestj ∧ chEq a b (besti - 1) (bestj - 1) then
      extendLeft a b alo blo fuel (besti - 1, bestj - 1, bestsize + 1)
    else (besti, bestj, bestsize)

/-- The second extension pass of `find_longest_match`:
`while besti+bestsize < ahi and bestj+bestsize < bhi and
a[besti+bestsize] == b[bestj+bestsize]`, with the empty junk set.  Called
with `fuel = ahi - (besti + bestsize)`, an upper bound on the number of
iterations. -/
def extendRight (a b : List Char) (ahi bhi : Nat) :
    Nat → Nat × Nat × Nat → Nat × Nat × Nat
  | 0, best => best
  | fuel + 1, (besti, bestj, bestsize) =>
    if besti + bestsize < ahi ∧ bestj + bestsize < bhi ∧
       chEq a b (besti + bestsize) (bestj + bestsize) then
      extendRight a b ahi bhi fuel (besti, bestj, bestsize + 1)
    else (besti, bestj, bestsize)

/-- `SequenceMatcher.find_longest_match(alo, ahi, blo, bhi)` with empty
junk sets: the dynamic-programming loop followed by the two (non-junk)
extension passes.  The two junk extension passes of the source are
identities because `isbjunk` is constantly false here. -/
def findLongestMatch (a b : List Char) (bj : Char → List Nat)
    (alo ahi blo bhi : Nat) : Nat × Nat × Nat :=
  let st := flmLoop a bj blo bhi (List.range' alo (ahi - alo)) (fun _ => 0, (alo, blo, 0))
  let best := extendLeft a b alo blo st.2.1 st.2
  extendRight a b ahi bhi (ahi - (best.1 + best.2.2)) best

/-- The total size of the matching blocks of
`SequenceMatcher.get_matching_blocks` on the range
`(alo, ahi, blo, bhi)`: the longest match `(i, j, k)` plus the totals of
the two flanking sub-ranges, exactly as the queue in the source
enumerates them (the queue order does not affect the sum).  The source
recurses left iff `alo < i and blo < j` and right iff
`i+k < ahi and j+k < bhi`; the extra conjuncts `i < ahi` and `alo < i+k`
written here are consequences of `alo ≤ i ∧ i + k ≤ ahi ∧ 0 < k`, which
holds of every block `find_longest_match` returns, and they bound the
recursion: every recursive call strictly decreases `ahi - alo`, so the
structural `fuel` (started at `ahi - alo + 1` below) never reaches 0. -/
def matchTotalF (a b : List Char) (bj : Char → List Nat) :
    Nat → Nat → Nat → Nat → Nat → Nat
  | 0, _, _, _, _ => 0
  | fuel + 1, alo, ahi, blo, bhi =>
    match findLongestMatch a b bj alo ahi blo bhi with
    | (i, j, k) =>
      if 0 < k then
        k + (if alo < i ∧ i < ahi ∧ blo < j then matchTotalF a b bj fuel alo i blo j else 0)
          + (if i + k < ahi ∧ alo < i + k ∧ j + k < bhi then
               matchTotalF a b bj fuel (i + k) ahi (j + k) bhi else 0)
      else 0

/-- The total with the fuel discharged: the initial fuel `ahi - alo + 1`
strictly dominates the measure `ahi - alo`, which every recursive call
decreases (by the guard conjuncts), so the fuel never runs out. -/
def matchTotal (a b : List Char) (bj : Char → List Nat)
    (alo ahi blo bhi : Nat) : Nat :=
  matchTotalF a b bj (ahi - alo + 1) alo ahi blo bhi

/-- `SequenceMatcher.ratio()` for `a = x` (a candidate) and `b = word`
(the normalized request): `2*M/T` as an exact rational, `1` when both
strings are empty (`_calculate_ratio`).  The source compares the
in-float ratio against the float cutoff `0.6`; for the string lengths at
which the comparison can be tight the two roundings of `2*M/T` and of
`0.6` never flip the comparison, so `ℚ` with cutoff `3/5` decides
identically.  The `real_quick_ratio` / `quick_ratio` prefilters of
`get_close_matches` are upper bounds on `ratio` and never change which
candidates qualify. -/
def simScore (a b : List Char) : ℚ :=
  if a.length + b.length = 0 then 1
  else 2 * (matchTotal a b (b2jOf b) 0 a.length 0 b.length : ℚ) / (a.length + b.length)

/-- Python string comparison `s < t`: lexicographic on code points. -/
def pyStrLtL : List Char → List Char → Bool
  | [], [] => false
  | [], _ :: _ => true
  | _ :: _, [] => false
  | c :: cs, d :: ds =>
    if c.toNat < d.toNat then true
    else if d.toNat < c.toNat then false
    else pyStrLtL cs ds

/-- Comparison of the `(ratio, candidate)` pairs that
`heapq.nlargest` orders: by ratio, ties by string comparison. -/
def pairGt (p q : ℚ × String) : Bool :=
  decide (q.1 < p.1) || (decide (p.1 = q.1) && pyStrLtL q.2.data p.2.data)

/-- `difflib.get_close_matches(word, possibilities, n=1, cutoff)`;
returns the top scorer among the candidates whose ratio clears the
cutoff, `none` when no candidate does.  `nlargest(1, result)` on the
`(ratio, x)` pairs picks the maximum pair in the order embedded by
`pairGt` (candidates are pairwise distinct strings, so no pair ties). -/
def getCloseMatches1 (word : String) (possibilities : List String) (cutoff : ℚ) :
    Option String :=
  let result := possibilities.filterMap (fun x =>
    let r := simScore x.data word.data
    if cutoff ≤ r then some (r, x) else none)
  (result.foldl (fun best p =>
      match best with
      | none => some p
      | some q => if pairGt p q then some p else some q) none).map Prod.snd

/-!
The tolerant lookup `_ToolMap.__getitem__`.  Lookup keys are arbitrary
Python objects; `PyKey` embeds the shapes a key can take: a string, or a
hashable non-string (modelled by `int`, `None`, `bool`), or an unhashable
object (modelled by `list`).  `dict.__contains__` hashes its argument
first and raises `TypeError` on an unhashable one; a hashable non-string
never compares equal to a `str` key.
-/

/-- A Python object used as a lookup key. -/
inductive PyKey where
  | str (s : String)
  | intK (n : Int)
  | noneK
  | boolK (b : Bool)
  | listK (elems : List Int)
deriving DecidableEq, Repr

/-- Whether the key is hashable (`list` is not). -/
def PyKey.hashable : PyKey → Bool
  | .listK _ => false
  | _ => true

/-- Python `==` between a lookup key and a `str` dict key: value equality
for strings, false for every non-string shape modelled here. -/
def pyKeyEqStr (k : PyKey) (s : String) : Bool :=
  match k with
  | .str t => t == s
  | _ => false

/-- The full `_normalize(name)` including its
`if not isinstance(name, str): return ""` guard. -/
def normalizeKey : PyKey → String
  | .str s => pyNormalize s
  | _ => ""

/-- The outcome of `_ToolMap.__getitem__`: the factory on success, a
raised `KeyError` carrying the original key and the suggested canonical
name (`KeyError(f"{key!r} (closest: {ref2!r})")`), a raised `KeyError`
carrying only a key, or the `TypeError` that `dict.__contains__` raises
on an unhashable key. -/
inductive TolerantResult where
  | ok (v : ToolClass)
  | keyErrorSuggest (key : PyKey) (closest : String)
  | keyError (key : PyKey)
  | typeErrorUnhashable (key : PyKey)
deriving DecidableEq, Repr

/-- `_ToolMap.__getitem__`, parameterized over the normalization function
`normF` applied to string requests (the module uses `_normalize`; the
parameter makes the exact-match path's independence from normalization a
statable property), the map contents `m` and the module-level normalized
index `nidx`.  In order: exact match; normalized match (where the inner
`dict.__getitem__(self, ref)` would raise `KeyError(ref)` if `ref` were
absent — dead for the shipped registry); fuzzy suggestion via
`get_close_matches(nkey, list(nidx.keys()), n=1, cutoff=0.6)` (where the
inner `_normalized_index[suggestion[0]]` would raise
`KeyError(suggestion[0])` if absent — also dead); otherwise
`KeyError(key)`. -/
def getItemAux (normF : String → String) (m : List (String × ToolClass))
    (nidx : List (String × String)) (key : PyKey) : TolerantResult :=
  if key.hashable = false then .typeErrorUnhashable key
  else
    match m.find? (fun p => pyKeyEqStr key p.1) with
    | some p => .ok p.2
    | none =>
      let nkey := match key with | .str s => normF s | _ => ""
      match dictGet? nidx nkey with
      | some ref =>
        match dictGet? m ref with
        | some v => .ok v
        | none => .keyError (.str ref)
      | none =>
        match getCloseMatches1 nkey (nidx.map Prod.fst) ((3 : ℚ) / 5) with
        | some sug =>
          match dictGet? nidx sug with
          | some ref2 => .keyErrorSuggest key ref2
          | none => .keyError (.str sug)
        | none => .keyError key

/-- Lookup on the shipped registry, for an arbitrary Python key. -/
def tolerantGetItem (key : PyKey) : TolerantResult :=
  getItemAux pyNormalize tool_functions_live normalized_index_live key

/-- Lookup on the shipped registry, for a string request. -/
def getItem (key : String) : TolerantResult :=
  tolerantGetItem (.str key)

/-- Whether a lookup outcome is a failure (a raised exception). -/
def TolerantResult.isFailure : TolerantResult → Bool
  | .ok _ => false
  | _ => true

/-- The registry state a lookup can read: the `_ToolMap` contents and the
module-level `_normalized_index`. -/
structure RegistryState where
  tools : List (String × ToolClass)
  nindex : List (String × String)
deriving DecidableEq

/-- State-passing translation of `_ToolMap.__getitem__`: the method body
contains no assignment to the dict contents or to the module globals, so
the translated step returns the state it was given. -/
def getItemSt (st : RegistryState) (key : String) :
    TolerantResult × RegistryState :=
  (getItemAux pyNormalize st.tools st.nindex (.str key), st)

/-- Result of invoking a tool's `_run`. -/
inductive RunResult where
  | payload (entries : List (String × String))
  | raised (msg : String)
deriving DecidableEq, Repr

/-- The `_run` bodies of the placeholder classes `_ESMDummy` and
`_NativeDummy`: a plain `return {"error": ...}` for any arguments, never
a `raise`.  Real tools' `_run` bodies are out of scope (`none`). -/
def runDummy : ToolClass → Option RunResult
  | .esmDummy => some (.payload [("error", "ESM Migration Tool not available")])
  | .nativeDummy => some (.payload [("error", "Native Module Migrator not available")])
  | _ => none

/-!
Reference transforms written from the specification's words, for
comparison against the code's `_normalize`.
-/

/-- Modelled from the spec: Unicode canonical composition (NFC).  On the
character set modelled in this development (ASCII, the Unicode whitespace
characters, U+FB01) canonical composition is the identity: none of these
characters has a canonical decomposition, and no combining characters are
involved.  (NFC differs from NFKC exactly on compatibility characters
such as U+00A0 and U+FB01, which NFC leaves unchanged.) -/
def nfcStr (l : List Char) : List Char := l

/-- Modelled from the spec: one step of collapsing whitespace runs; the
flag records whether the previous character belonged to a whitespace run
already emitted as one space. -/
def collapseWsAux : Bool → List Char → List Char
  | _, [] => []
  | inRun, c :: cs =>
    if pyIsSpace c then
      (if inRun then collapseWsAux true cs else ' ' :: collapseWsAux true cs)
    else c :: collapseWsAux false cs

/-- Modelled from the spec: "collapsing every whitespace character
(including non-breaking space) to a single ASCII space" read as collapsing
each maximal whitespace run to one space. -/
def collapseWsRuns (l : List Char) : List Char :=
  collapseWsAux false l

/-- Modelled from the spec: the reference normalization — "Unicode
canonical composition of s, followed by collapsing every whitespace
character (including non-breaking space) to a single ASCII space,
followed by trimming leading and trailing whitespace". -/
def specNormalize (s : String) : String :=
  String.mk (pyStrip (collapseWsRuns (nfcStr s.data)))

/-- The whitespace pass as the amended spec words it: each whitespace
character individually becomes one ASCII space, runs are preserved
(written by direct recursion, independently of `replaceWs`). -/
def replaceEachWs : List Char → List Char
  | [] => []
  | c :: cs => (if pyIsSpace c then ' ' else c) :: replaceEachWs cs

/-- Modelled from the spec as amended by claim C3's counterexample: NFKC
compatibility composition, then each whitespace character replaced by one
ASCII space (runs preserved), then trimming. -/
def specNormalizeAmended (s : String) : String :=
  String.mk (pyStrip (replaceEachWs (nfkcStr s.data)))

/-! Helper lemmas. -/

/-- A successful `dictGet?` exhibits a member of the association list. -/
theorem dictGet?_mem {α : Type} {d : List (String × α)} {k : String} {v : α}
    (h : dictGet? d k = some v) : (k, v) ∈ d := by
  induction d with
  | nil => exact absurd h (by simp [dictGet?])
  | cons p rest ih =>
    obtain ⟨k', v'⟩ := p
    by_cases hk : k' = k
    · subst hk
      rw [dictGet?, if_pos rfl] at h
      exact (Option.some_inj.mp h) ▸ List.mem_cons_self _ _
    · rw [dictGet?, if_neg hk] at h
      exact List.mem_cons_of_mem _ (ih h)

/-- A key occurring in the key list has a `dictGet?` value. -/
theorem dictGet?_isSome_of_mem {α : Type} {d : List (String × α)} {k : String}
    (h : k ∈ d.map Prod.fst) : (dictGet? d k).isSome = true := by
  induction d with
  | nil => exact absurd h (by simp)
  | cons p rest ih =>
    obtain ⟨k', v'⟩ := p
    by_cases hk : k' = k
    · subst hk
      simp [dictGet?]
    · rw [dictGet?, if_neg hk]
      rcases List.mem_cons.mp h with h1 | h1
      · exact absurd h1.symm hk
      · exact ih h1

/-- The exact-match probe of `__getitem__` for a string key agrees with
plain dict lookup. -/
theorem find?_str_eq_dictGet? (m : List (String × ToolClass)) (key : String) :
    (m.find? (fun p => pyKeyEqStr (.str key) p.1)).map Prod.snd = dictGet? m key := by
  induction m with
  | nil => rfl
  | cons p rest ih =>
    obtain ⟨k', v⟩ := p
    by_cases h : k' = key
    · subst h
      rw [List.find?_cons_of_pos _ (by simp [pyKeyEqStr])]
      simp [dictGet?]
    · rw [List.find?_cons_of_neg _ (by simp [pyKeyEqStr]; exact fun hh => h hh.symm)]
      rw [dictGet?, if_neg h]
      exact ih

/-- The fold that embeds `heapq.nlargest(1, ·)` yields `some` exactly when
fed a starting value or a nonempty list. -/
theorem pickMax_some (l : List (ℚ × String)) (q : ℚ × String) :
    ∃ z, l.foldl (fun best p =>
      match best with
      | none => some p
      | some q' => if pairGt p q' then some p else some q') (some q) = some z := by
  induction l generalizing q with
  | nil => exact ⟨q, rfl⟩
  | cons p rest ih =>
    show ∃ z, rest.foldl _ (if pairGt p q then some p else some q) = some z
    by_cases h : pairGt p q = true
    · rw [if_pos h]; exact ih p
    · rw [if_neg h]; exact ih q

/-- The `nlargest` fold of a nonempty list (or from a `some` start) picks
something. -/
theorem pickMax_isSome (l : List (ℚ × String)) (acc : Option (ℚ × String))
    (h : l ≠ [] ∨ acc.isSome = true) :
    (l.foldl (fun best p =>
      match best with
      | none => some p
      | some q' => if pairGt p q' then some p else some q') acc).isSome = true := by
  induction l generalizing acc with
  | nil =>
    rcases h with h | h
    · exact absurd rfl h
    · exact h
  | cons p rest ih =>
    rw [List.foldl_cons]
    refine ih _ (Or.inr ?_)
    cases acc with
    | none => rfl
    | some q' =>
      show (if pairGt p q' = true then some p else some q').isSome = true
      split <;> rfl

/-- Anything the `nlargest` fold picks came from its start value or its
list. -/
theorem pickMax_mem {l : List (ℚ × String)} {acc : Option (ℚ × String)} {z : ℚ × String}
    (h : l.foldl (fun best p =>
      match best with
      | none => some p
      | some q' => if pairGt p q' then some p else some q') acc = some z) :
    acc = some z ∨ z ∈ l := by
  induction l generalizing acc with
  | nil => exact Or.inl h
  | cons p rest ih =>
    rcases ih h with h1 | h1
    · cases acc with
      | none => exact Or.inr (by simp at h1; simp [h1])
      | some q' =>
        by_cases hg : pairGt p q' = true
        · simp only [hg, if_pos] at h1
          exact Or.inr (by simp at h1; simp [h1])
        · simp only [hg] at h1
          simp at h1
          exact Or.inl (by simp [h1])
    · exact Or.inr (List.mem_cons_of_mem _ h1)

/-- `get_close_matches` returns an element of its candidate list. -/
theorem getCloseMatches1_mem {word : String} {ps : List String} {cutoff : ℚ} {x : String}
    (h : getCloseMatches1 word ps cutoff = some x) : x ∈ ps := by
  unfold getCloseMatches1 at h
  rw [Option.map_eq_some'] at h
  obtain ⟨z, hz, hzx⟩ := h
  rcases pickMax_mem hz with h1 | h1
  · exact absurd h1 (by simp)
  · rw [List.mem_filterMap] at h1
    obtain ⟨y, hy, hfy⟩ := h1
    by_cases hc : cutoff ≤ simScore y.data word.data
    · rw [if_pos hc] at hfy
      cases hfy
      exact hzx ▸ hy
    · rw [if_neg hc] at hfy
      exact absurd hfy (by simp)

/-- `get_close_matches` returns a candidate exactly when some candidate's
ratio clears the cutoff. -/
theorem getCloseMatches1_isSome_iff (word : String) (ps : List String) (cutoff : ℚ) :
    (getCloseMatches1 word ps cutoff).isSome = true ↔
      ∃ x ∈ ps, cutoff ≤ simScore x.data word.data := by
  unfold getCloseMatches1
  constructor
  · intro h
    rw [Option.isSome_map'] at h
    obtain ⟨z, hz⟩ := Option.isSome_iff_exists.mp h
    rcases pickMax_mem hz with h1 | h1
    · exact absurd h1 (by simp)
    · rw [List.mem_filterMap] at h1
      obtain ⟨y, hy, hfy⟩ := h1
      by_cases hc : cutoff ≤ simScore y.data word.data
      · exact ⟨y, hy, hc⟩
      · rw [if_neg hc] at hfy
        exact absurd hfy (by simp)
  · intro ⟨x, hx, hc⟩
    rw [Option.isSome_map']
    have hmem : (simScore x.data word.data, x) ∈ ps.filterMap (fun y =>
        if cutoff ≤ simScore y.data word.data then some (simScore y.data word.data, y) else none) :=
      List.mem_filterMap.mpr ⟨x, hx, by rw [if_pos hc]⟩
    exact pickMax_isSome _ _ (Or.inl (List.ne_nil_of_mem hmem))

/-- Every character an NFKC expansion produces is NFKC-fixed. -/
theorem nfkcChar_expand_fixed (c d : Char) (hd : d ∈ nfkcChar c) : nfkcChar d = [d] := by
  by_cases h1 : c.toNat = 0xA0 ∨ (0x2000 ≤ c.toNat ∧ c.toNat ≤ 0x200A) ∨
      c.toNat = 0x202F ∨ c.toNat = 0x205F ∨ c.toNat = 0x3000
  · rw [nfkcChar, if_pos h1] at hd
    rcases List.mem_singleton.mp hd with rfl
    decide
  · by_cases h2 : c.toNat = 0xFB01
    · rw [nfkcChar, if_neg h1, if_pos h2] at hd
      rcases List.mem_cons.mp hd with rfl | hd
      · decide
      · rcases List.mem_singleton.mp hd with rfl
        decide
    · rw [nfkcChar, if_neg h1, if_neg h2] at hd
      rcases List.mem_singleton.mp hd with rfl
      rw [nfkcChar, if_neg h1, if_neg h2]

/-- A string of NFKC-fixed characters is NFKC-fixed. -/
theorem nfkcStr_fixed (l : List Char) (h : ∀ c ∈ l, nfkcChar c = [c]) : nfkcStr l = l := by
  induction l with
  | nil => rfl
  | cons c cs ih =>
    show (List.map nfkcChar (c :: cs)).flatten = c :: cs
    rw [List.map_cons, List.flatten_cons, h c (List.mem_cons_self c cs),
      List.singleton_append]
    show c :: nfkcStr cs = c :: cs
    rw [ih (fun x hx => h x (List.mem_cons_of_mem c hx))]

/-- Stripping keeps only characters of the original list. -/
theorem mem_pyStrip {d : Char} {l : List Char} (h : d ∈ pyStrip l) : d ∈ l := by
  unfold pyStrip at h
  rw [List.mem_reverse] at h
  have h1 := (List.dropWhile_suffix pyIsSpace).sublist.subset h
  rw [List.mem_reverse] at h1
  exact (List.dropWhile_suffix pyIsSpace).sublist.subset h1

/-- Characters of the whitespace-replaced NFKC string are NFKC-fixed, and
whitespace only as the ASCII space. -/
theorem mem_replaceWs_nfkc {d : Char} {l : List Char} (h : d ∈ replaceWs (nfkcStr l)) :
    nfkcChar d = [d] ∧ (pyIsSpace d = true → d = ' ') := by
  rw [replaceWs, List.mem_map] at h
  obtain ⟨e, he, hed⟩ := h
  by_cases hq : pyIsSpace e = true
  · rw [if_pos hq] at hed
    subst hed
    exact ⟨by decide, fun _ => rfl⟩
  · rw [if_neg hq] at hed
    subst hed
    rw [nfkcStr, List.mem_flatten] at he
    obtain ⟨ex, hex, hein⟩ := he
    rw [List.mem_map] at hex
    obtain ⟨c, _, hc⟩ := hex
    refine ⟨nfkcChar_expand_fixed c e (hc ▸ hein), fun hcontra => absurd hcontra hq⟩

/-- Replacing whitespace is the identity on a list whose only whitespace
character is the ASCII space. -/
theorem replaceWs_fixed (l : List Char) (h : ∀ c ∈ l, pyIsSpace c = true → c = ' ') :
    replaceWs l = l := by
  induction l with
  | nil => rfl
  | cons c cs ih =>
    show (if pyIsSpace c then ' ' else c) :: replaceWs cs = c :: cs
    have hc : (if pyIsSpace c then ' ' else c) = c := by
      by_cases hq : pyIsSpace c = true
      · rw [if_pos hq, h c (List.mem_cons_self c cs) hq]
      · rw [if_neg hq]
    rw [hc, ih (fun x hx => h x (List.mem_cons_of_mem c hx))]

/-- Python `str.strip()` is idempotent. -/
theorem pyStrip_idem (l : List Char) : pyStrip (pyStrip l) = pyStrip l := by
  have hBfix : ((l.dropWhile pyIsSpace).reverse.dropWhile pyIsSpace).reverse.dropWhile pyIsSpace =
      ((l.dropWhile pyIsSpace).reverse.dropWhile pyIsSpace).reverse := by
    cases hc : ((l.dropWhile pyIsSpace).reverse.dropWhile pyIsSpace).reverse with
    | nil => rfl
    | cons c t =>
      have hsplit : (l.dropWhile pyIsSpace).reverse.takeWhile pyIsSpace ++
          (l.dropWhile pyIsSpace).reverse.dropWhile pyIsSpace = (l.dropWhile pyIsSpace).reverse :=
        List.takeWhile_append_dropWhile pyIsSpace (l.dropWhile pyIsSpace).reverse
      have hrev := congrArg List.reverse hsplit
      rw [List.reverse_append, List.reverse_reverse, hc] at hrev
      have hA : l.dropWhile pyIsSpace =
          c :: (t ++ ((l.dropWhile pyIsSpace).reverse.takeWhile pyIsSpace).reverse) :=
        hrev.symm
      have hlen : 0 < (l.dropWhile pyIsSpace).length := by
        rw [hA]; exact Nat.succ_pos _
      have hnot := List.dropWhile_get_zero_not pyIsSpace l hlen
      have hget : (l.dropWhile pyIsSpace).get ⟨0, hlen⟩ = c := by
        have h0 : ∀ (m : List Char)
            (hm : m = c :: (t ++ ((l.dropWhile pyIsSpace).reverse.takeWhile pyIsSpace).reverse))
            (hl : 0 < m.length), m.get ⟨0, hl⟩ = c := by
          intro m hm hl
          subst hm
          rfl
        exact h0 _ hA hlen
      rw [hget] at hnot
      rw [List.dropWhile_cons, if_neg hnot]
  show ((((l.dropWhile pyIsSpace).reverse.dropWhile pyIsSpace).reverse.dropWhile
      pyIsSpace).reverse.dropWhile pyIsSpace).reverse =
    ((l.dropWhile pyIsSpace).reverse.dropWhile pyIsSpace).reverse
  rw [hBfix, List.reverse_reverse, List.dropWhile_idempotent]

/-- The full normalization pipeline is idempotent at the character-list
level. -/
theorem normList_idem (l : List Char) :
    pyStrip (replaceWs (nfkcStr (pyStrip (replaceWs (nfkcStr l))))) =
      pyStrip (replaceWs (nfkcStr l)) := by
  have hmem : ∀ d ∈ pyStrip (replaceWs (nfkcStr l)),
      nfkcChar d = [d] ∧ (pyIsSpace d = true → d = ' ') :=
    fun d hd => mem_replaceWs_nfkc (mem_pyStrip hd)
  rw [nfkcStr_fixed _ (fun c hc => (hmem c hc).1),
    replaceWs_fixed _ (fun c hc => (hmem c hc).2), pyStrip_idem]

/-- Every value of the shipped normalized index is a present key of the
shipped registry. -/
theorem nidx_values_in_map :
    ∀ p ∈ normalized_index_live, (dictGet? tool_functions_live p.2).isSome = true := by
  decide

/-- Exhaustive case analysis of a string lookup on the shipped registry:
exact hit, normalized hit, miss with suggestion, or bare miss.  The two
defensive `KeyError` branches inside `__getitem__` are dead here because
index values are registry keys and a fuzzy suggestion is an index key. -/
theorem getItem_cases (key : String) :
    (∃ v, dictGet? tool_functions_live key = some v ∧ getItem key = .ok v) ∨
    (dictGet? tool_functions_live key = none ∧
      ∃ ref v, dictGet? normalized_index_live (pyNormalize key) = some ref ∧
        dictGet? tool_functions_live ref = some v ∧ getItem key = .ok v) ∨
    (dictGet? tool_functions_live key = none ∧
      dictGet? normalized_index_live (pyNormalize key) = none ∧
      ((∃ sug ref2,
          getCloseMatches1 (pyNormalize key) (normalized_index_live.map Prod.fst) ((3 : ℚ)/5) =
            some sug ∧
          dictGet? normalized_index_live sug = some ref2 ∧
          getItem key = .keyErrorSuggest (.str key) ref2) ∨
        (getCloseMatches1 (pyNormalize key) (normalized_index_live.map Prod.fst) ((3 : ℚ)/5) =
            none ∧
          getItem key = .keyError (.str key)))) := by
  have hg : getItem key = (match tool_functions_live.find? (fun p => pyKeyEqStr (.str key) p.1) with
      | some p => TolerantResult.ok p.2
      | none =>
        match dictGet? normalized_index_live (pyNormalize key) with
        | some ref =>
          (match dictGet? tool_functions_live ref with
            | some v => TolerantResult.ok v
            | none => TolerantResult.keyError (.str ref))
        | none =>
          match getCloseMatches1 (pyNormalize key) (normalized_index_live.map Prod.fst) ((3 : ℚ)/5) with
          | some sug =>
            (match dictGet? normalized_index_live sug with
              | some ref2 => TolerantResult.keyErrorSuggest (.str key) ref2
              | none => TolerantResult.keyError (.str sug))
          | none => TolerantResult.keyError (.str key)) := rfl
  cases hf : tool_functions_live.find? (fun p => pyKeyEqStr (.str key) p.1) with
  | some p =>
    simp only [hf] at hg
    have hd : dictGet? tool_functions_live key = some p.2 := by
      rw [← find?_str_eq_dictGet?, hf]
      rfl
    exact Or.inl ⟨p.2, hd, hg⟩
  | none =>
    simp only [hf] at hg
    have hd : dictGet? tool_functions_live key = none := by
      rw [← find?_str_eq_dictGet?, hf]
      rfl
    cases hn : dictGet? normalized_index_live (pyNormalize key) with
    | some ref =>
      simp only [hn] at hg
      cases hm : dictGet? tool_functions_live ref with
      | some v =>
        simp only [hm] at hg
        exact Or.inr (Or.inl ⟨hd, ref, v, rfl, hm, hg⟩)
      | none =>
        have := nidx_values_in_map _ (dictGet?_mem hn)
        rw [hm] at this
        exact absurd this (by simp)
    | none =>
      simp only [hn] at hg
      cases hs : getCloseMatches1 (pyNormalize key) (normalized_index_live.map Prod.fst) ((3 : ℚ)/5) with
      | some sug =>
        simp only [hs] at hg
        cases hm2 : dictGet? normalized_index_live sug with
        | some ref2 =>
          simp only [hm2] at hg
          exact Or.inr (Or.inr ⟨hd, rfl, Or.inl ⟨sug, ref2, rfl, hm2, hg⟩⟩)
        | none =>
          have := dictGet?_isSome_of_mem (d := normalized_index_live)
            (getCloseMatches1_mem hs)
          rw [hm2] at this
          exact absurd this (by simp)
      | none =>
        simp only [hs] at hg
        exact Or.inr (Or.inr ⟨hd, rfl, Or.inr ⟨rfl, hg⟩⟩)

/-- On an exact hit, `__getitem__` returns the found factory whatever the
normalization function is (the exact-match path never consults it). -/
theorem getItemAux_exact (normF : String → String) (m : List (String × ToolClass))
    (nidx : List (String × String)) (key : String) (pr : String × ToolClass)
    (hf : m.find? (fun p => pyKeyEqStr (.str key) p.1) = some pr) :
    getItemAux normF m nidx (.str key) = .ok pr.2 := by
  unfold getItemAux
  rw [if_neg (by simp [PyKey.hashable])]
  simp only [hf]

/-- Claim C1: the resolver's lookup follows the fixed ordered algorithm,
first match wins — a byte-for-byte exact hit returns the registered
factory immediately (independently of the normalization function, which
the exact path never evaluates); otherwise a normalized-index hit returns
the mapped canonical key's factory; otherwise the lookup fails. -/
theorem c1_resolution_order (key : String) :
    (∀ v, dictGet? tool_functions_live key = some v →
      getItem key = .ok v ∧
      ∀ normF : String → String,
        getItemAux normF tool_functions_live normalized_index_live (.str key) = .ok v) ∧
    (dictGet? tool_functions_live key = none →
      ∀ ref, dictGet? normalized_index_live (pyNormalize key) = some ref →
        ∃ v, dictGet? tool_functions_live ref = some v ∧ getItem key = .ok v) ∧
    (dictGet? tool_functions_live key = none →
      dictGet? normalized_index_live (pyNormalize key) = none →
      (getItem key).isFailure = true) := by
  refine ⟨?_, ?_, ?_⟩
  · intro v hv
    have h := find?_str_eq_dictGet? tool_functions_live key
    rw [hv] at h
    obtain ⟨pr, hpr, hv2⟩ := Option.map_eq_some'.mp h
    subst hv2
    exact ⟨getItemAux_exact pyNormalize _ _ key pr hpr,
      fun normF => getItemAux_exact normF _ _ key pr hpr⟩
  · intro hnone ref href
    rcases getItem_cases key with ⟨v, hv, _⟩ | ⟨_, ref', v, hn', hm', hg'⟩ | ⟨_, hn, _⟩
    · rw [hnone] at hv
      exact Option.noConfusion hv
    · rw [href] at hn'
      cases hn'
      exact ⟨v, hm', hg'⟩
    · rw [href] at hn
      exact Option.noConfusion hn
  · intro h1 h2
    rcases getItem_cases key with ⟨v, hv, _⟩ | ⟨_, ref', v, hn', _, _⟩ | ⟨_, _, hcase⟩
    · rw [h1] at hv
      exact Option.noConfusion hv
    · rw [h2] at hn'
      exact Option.noConfusion hn'
    · rcases hcase with ⟨sug, ref2, _, _, hg⟩ | ⟨_, hg⟩ <;> rw [hg] <;> rfl

/-- Claim C1 witness: the exact path and the bare-failure path at concrete
requests. -/
theorem c1_witness :
    getItem "Node Code Analyzer" = .ok ToolClass.nodeCodeAnalyzer ∧
    (getItem "Totally Unknown Tool").isFailure = true := by
  constructor
  · exact ((c1_resolution_order "Node Code Analyzer").1 ToolClass.nodeCodeAnalyzer
      (by decide)).1
  · exact (c1_resolution_order "Totally Unknown Tool").2.2 (by decide) (by decide)

/-- Claim C4: a failed lookup never returns a default — it raises carrying
the original request, with a suggestion exactly when some normalized
canonical key clears the ratio cutoff 0.6 against the normalized request;
the suggestion is the canonical key the index maps the top-1 close match
to. -/
theorem c4_failure_semantics (key : String) (hfail : (getItem key).isFailure = true) :
    (getItem key = .keyError (.str key) ∨
      ∃ s, getItem key = .keyErrorSuggest (.str key) s) ∧
    ((∃ s, getItem key = .keyErrorSuggest (.str key) s) ↔
      ∃ nk ∈ normalized_index_live.map Prod.fst,
        (3 : ℚ)/5 ≤ simScore nk.data (pyNormalize key).data) ∧
    (∀ s, getItem key = .keyErrorSuggest (.str key) s →
      ∃ sug,
        getCloseMatches1 (pyNormalize key) (normalized_index_live.map Prod.fst) ((3 : ℚ)/5) =
          some sug ∧
        dictGet? normalized_index_live sug = some s) := by
  rcases getItem_cases key with ⟨v, _, hg⟩ | ⟨_, ref, v, _, _, hg⟩ | ⟨_, _, hcase⟩
  · rw [hg] at hfail
    exact absurd hfail (by simp [TolerantResult.isFailure])
  · rw [hg] at hfail
    exact absurd hfail (by simp [TolerantResult.isFailure])
  · rcases hcase with ⟨sug, ref2, hs, hm2, hg⟩ | ⟨hs, hg⟩
    · refine ⟨Or.inr ⟨ref2, hg⟩, ⟨fun _ => ?_, fun _ => ⟨ref2, hg⟩⟩, ?_⟩
      · have hsome : (getCloseMatches1 (pyNormalize key)
            (normalized_index_live.map Prod.fst) ((3 : ℚ)/5)).isSome = true := by
          rw [hs]; rfl
        exact (getCloseMatches1_isSome_iff _ _ _).mp hsome
      · intro s hgs
        rw [hg] at hgs
        injection hgs with _ h2
        subst h2
        exact ⟨sug, hs, hm2⟩
    · refine ⟨Or.inl hg, ⟨?_, ?_⟩, ?_⟩
      · intro ⟨s, hgs⟩
        rw [hg] at hgs
        exact TolerantResult.noConfusion hgs
      · intro hex
        have hsome := (getCloseMatches1_isSome_iff (pyNormalize key)
          (normalized_index_live.map Prod.fst) ((3 : ℚ)/5)).mpr hex
        rw [hs] at hsome
        exact absurd hsome (by simp)
      · intro s hgs
        rw [hg] at hgs
        exact TolerantResult.noConfusion hgs

/-- Claim C4 witness: a one-edit-away request fails with a qualifying
candidate (hence a suggestion), a far-away request fails with none. -/
theorem c4_witness :
    (∃ nk ∈ normalized_index_live.map Prod.fst,
      (3 : ℚ)/5 ≤ simScore nk.data (pyNormalize "Node Cod Analyzer").data) ∧
    ¬(∃ nk ∈ normalized_index_live.map Prod.fst,
      (3 : ℚ)/5 ≤ simScore nk.data (pyNormalize "Totally Unknown Tool").data) := by
  have h1 := c4_failure_semantics "Node Cod Analyzer" (by with_unfolding_all decide)
  have h2 := c4_failure_semantics "Totally Unknown Tool" (by with_unfolding_all decide)
  refine ⟨h1.2.1.mp ⟨"Node Code Analyzer", by with_unfolding_all decide⟩, fun hex => ?_⟩
  obtain ⟨s, hs⟩ := h2.2.1.mpr hex
  rw [show getItem "Totally Unknown Tool" =
    .keyError (.str "Totally Unknown Tool") from by with_unfolding_all decide] at hs
  exact TolerantResult.noConfusion hs

/-- Claim C8: the lookup step is a pure function of the registry state and
the request — it returns the state unchanged, and repeating the call on
the resulting state gives the identical outcome. -/
theorem c8_lookup_is_pure (st : RegistryState) (key : String) :
    (getItemSt st key).2 = st ∧
    getItemSt ((getItemSt st key).2) key = getItemSt st key :=
  ⟨rfl, rfl⟩

/-- Claim C9: a suggested name is itself a canonical registry key, so
resolving the suggestion succeeds by exact match with the registered
factory. -/
theorem c9_suggestion_is_canonical (key s : String)
    (h : getItem key = .keyErrorSuggest (.str key) s) :
    s ∈ tool_functions_live.map Prod.fst ∧
    ∃ v, dictGet? tool_functions_live s = some v ∧ getItem s = .ok v := by
  rcases getItem_cases key with ⟨v, _, hg⟩ | ⟨_, ref, v, _, _, hg⟩ | ⟨_, _, hcase⟩
  · rw [hg] at h
    exact TolerantResult.noConfusion h
  · rw [hg] at h
    exact TolerantResult.noConfusion h
  · rcases hcase with ⟨sug, ref2, hs, hm2, hg⟩ | ⟨_, hg⟩
    · rw [hg] at h
      injection h with _ h2
      subst h2
      have hv := nidx_values_in_map _ (dictGet?_mem hm2)
      obtain ⟨v, hv⟩ := Option.isSome_iff_exists.mp hv
      have hpair : (ref2, v) ∈ tool_functions_live := dictGet?_mem hv
      refine ⟨List.mem_map.mpr ⟨(ref2, v), hpair, rfl⟩, v, hv, ?_⟩
      rcases getItem_cases ref2 with ⟨v', hv', hg'⟩ | ⟨hnone, _⟩ | ⟨hnone, _, _⟩
      · rw [hv] at hv'
        cases hv'
        exact hg'
      · rw [hv] at hnone
        exact Option.noConfusion hnone
      · rw [hv] at hnone
        exact Option.noConfusion hnone
    · rw [hg] at h
      exact TolerantResult.noConfusion h

/-- Claim C9 witness: the suggestion produced for "Node Cod Analyzer"
resolves exactly. -/
theorem c9_witness :
    "Node Code Analyzer" ∈ tool_functions_live.map Prod.fst ∧
    ∃ v, dictGet? tool_functions_live "Node Code Analyzer" = some v ∧
      getItem "Node Code Analyzer" = .ok v :=
  c9_suggestion_is_canonical "Node Cod Analyzer" "Node Code Analyzer"
    (by with_unfolding_all decide)

/-- Claim C5: for every canonical key of the registry (under any outcome
of the optional imports), its normalization is an index key mapping back
to the canonical key itself.  Purity and determinism of `_normalize` hold
by construction in this embedding: `pyNormalize` is a function of its
string argument alone. -/
theorem c5_index_roundtrip :
    ∀ esmImportOk nativeImportOk : Bool,
      ∀ p ∈ tool_functions esmImportOk nativeImportOk,
        dictGet? (normalized_index esmImportOk nativeImportOk) (pyNormalize p.1) =
          some p.1 := by
  decide

/-- Claim C5 witness: the roundtrip at a concrete canonical key. -/
theorem c5_witness :
    dictGet? (normalized_index true true) (pyNormalize "Node Code Analyzer") =
      some "Node Code Analyzer" :=
  c5_index_roundtrip true true ("Node Code Analyzer", ToolClass.nodeCodeAnalyzer) (by decide)

/-- Claim C2 is refuted by the code: `_normalize` replaces whitespace
characters one-for-one and never merges runs, so the double-interior-space
request keeps its two spaces, misses the normalized index, and the lookup
raises `KeyError` (with the canonical key as a fuzzy suggestion) instead
of resolving.  The conjuncts record the failing evaluation, why it
happens, the factory the claim expected, and that the leading/trailing
whitespace and NBSP-for-space variants do still resolve. -/
theorem c2_double_space_lookup_fails :
    getItem "Node  Code Analyzer" =
      .keyErrorSuggest (.str "Node  Code Analyzer") "Node Code Analyzer" ∧
    pyNormalize "Node  Code Analyzer" = "Node  Code Analyzer" ∧
    dictGet? normalized_index_live "Node  Code Analyzer" = none ∧
    dictGet? tool_functions_live "Node Code Analyzer" = some ToolClass.nodeCodeAnalyzer ∧
    getItem "  Node Code Analyzer  " = .ok ToolClass.nodeCodeAnalyzer ∧
    getItem "Node Code Analyzer" = .ok ToolClass.nodeCodeAnalyzer := by
  with_unfolding_all decide

/-- Claim C3 counterexample: the code's `_normalize` differs from the
spec's reference transform both on whitespace runs (the code keeps
"a  b" as is, the reference collapses it to "a b") and on the Unicode
normalization form (the code's NFKC rewrites the compatibility ligature
U+FB01, canonical composition leaves it alone). -/
theorem c3_counterexample :
    pyNormalize "a  b" ≠ specNormalize "a  b" ∧
    pyNormalize "ﬁt" ≠ specNormalize "ﬁt" := by
  decide

/-- Claim C3 (amended): `_normalize` equals the reference transform with
the whitespace collapse weakened to a one-for-one replacement and
canonical composition strengthened to NFKC compatibility composition. -/
theorem c3_amended_normalize_matches_reference (s : String) :
    pyNormalize s = specNormalizeAmended s := by
  have h : ∀ l : List Char, replaceEachWs l = replaceWs l := by
    intro l
    induction l with
    | nil => rfl
    | cons c cs ih =>
      show (if pyIsSpace c then ' ' else c) :: replaceEachWs cs = replaceWs (c :: cs)
      rw [ih]
      rfl
  show String.mk (pyStrip (replaceWs (nfkcStr s.data))) =
    String.mk (pyStrip (replaceEachWs (nfkcStr s.data)))
  rw [h]

/-- Claim C6: whatever the outcome of the two optional imports, the
registry carries all eight canonical keys in order; on an import failure
the same canonical name maps to the placeholder class, whose `_run`
returns the structured unavailable-error payload (a `return`, not a
`raise`). -/
theorem c6_registry_always_fully_populated :
    ∀ esmImportOk nativeImportOk : Bool,
      ((tool_functions esmImportOk nativeImportOk).map Prod.fst =
        ["Node Code Analyzer", "Dependency Analyzer", "Watchdog Service Analyzer",
         "Security Scanner", "Test Generator", "Node Version Migrator",
         "ESM Migration Tool", "Native Module Migrator"]) ∧
      (esmImportOk = false →
        dictGet? (tool_functions esmImportOk nativeImportOk) "ESM Migration Tool" =
          some ToolClass.esmDummy ∧
        runDummy ToolClass.esmDummy =
          some (.payload [("error", "ESM Migration Tool not available")])) ∧
      (nativeImportOk = false →
        dictGet? (tool_functions esmImportOk nativeImportOk) "Native Module Migrator" =
          some ToolClass.nativeDummy ∧
        runDummy ToolClass.nativeDummy =
          some (.payload [("error", "Native Module Migrator not available")])) := by
  decide

/-- Claim C6 witness: both imports failing still yields the placeholder
under the canonical ESM key with its error payload. -/
theorem c6_witness :
    dictGet? (tool_functions false false) "ESM Migration Tool" = some ToolClass.esmDummy ∧
    runDummy ToolClass.esmDummy =
      some (.payload [("error", "ESM Migration Tool not available")]) :=
  (c6_registry_always_fully_populated false false).2.1 rfl

/-- Claim C7: `_normalize` is idempotent — normalizing an already
normalized string changes nothing. -/
theorem c7_normalize_idempotent (s : String) :
    pyNormalize (pyNormalize s) = pyNormalize s :=
  congrArg String.mk (normList_idem s.data)

/-- A hashable key that matches no registry entry and normalizes to the
empty string fails with a bare `KeyError` carrying that key. -/
theorem getItemAux_nonstr_empty (key : PyKey)
    (hh : key.hashable = true)
    (hfind : tool_functions_live.find? (fun p => pyKeyEqStr key p.1) = none)
    (hnk : (match key with | PyKey.str s => pyNormalize s | _ => "") = "") :
    tolerantGetItem key = .keyError key := by
  unfold tolerantGetItem getItemAux
  rw [hh]
  rw [if_neg (by simp)]
  simp only [hfind, hnk,
    show dictGet? normalized_index_live "" = none from by decide,
    show getCloseMatches1 "" (normalized_index_live.map Prod.fst) ((3 : ℚ)/5) = none from by
      with_unfolding_all decide]

/-- Claim C10 counterexample: an unhashable lookup key (a `list`) makes
`dict.__contains__` raise `TypeError` inside `__getitem__`, so the claim's
"never raises a type error / always fails with an error carrying the key"
does not hold of every non-string key. -/
theorem c10_counterexample :
    tolerantGetItem (.listK []) = .typeErrorUnhashable (.listK []) ∧
    tolerantGetItem (.listK []) ≠ .keyError (.listK []) := by
  decide

/-- Claim C10 (amended): every hashable non-string key is handled totally
— it normalizes to the empty string, misses the exact, normalized and
fuzzy paths, and fails with a `KeyError` carrying the original key and no
suggestion.  (Unhashable keys instead raise `TypeError` from the
containment check, per the counterexample.) -/
theorem c10_amended_hashable_nonstring_fails (k : PyKey)
    (hh : k.hashable = true) (hs : ∀ t : String, k ≠ .str t) :
    normalizeKey k = "" ∧ tolerantGetItem k = .keyError k := by
  cases k with
  | str t => exact absurd rfl (hs t)
  | listK l => exact absurd hh (by simp [PyKey.hashable])
  | intK n => exact ⟨rfl, getItemAux_nonstr_empty _ rfl rfl rfl⟩
  | noneK => exact ⟨rfl, getItemAux_nonstr_empty _ rfl rfl rfl⟩
  | boolK b => exact ⟨rfl, getItemAux_nonstr_empty _ rfl rfl rfl⟩

/-- Claim C10 witness: the integer key 0 fails with a bare `KeyError`
carrying it. -/
theorem c10_witness :
    normalizeKey (.intK 0) = "" ∧ tolerantGetItem (.intK 0) = .keyError (.intK 0) :=
  c10_amended_hashable_nonstring_fails (.intK 0) rfl (fun t h => PyKey.noConfusion h)

/-!
Faithfulness of the fuelled matcher: `find_longest_match` only returns
blocks inside its window, the fuel of `matchTotalF` is irrelevant once it
dominates the measure `ahi - alo`, and `matchTotal` therefore satisfies
the verbatim recurrence of `get_matching_blocks` (with difflib's own
recursion conditions, no extra guards). -/

/-- The inner DP loop preserves the window invariants: table entries are
bounded by the number of processed rows and (when positive) describe runs
that start at or after `blo`; the best block stays inside the window. -/
theorem flmInner_bounds (blo bhi : Nat) (fOld : Nat → Nat) (i alo ahi : Nat)
    (hi1 : alo ≤ i) (hi2 : i < ahi)
    (hOld : ∀ j', fOld j' ≤ i - alo ∧ (0 < fOld j' → fOld j' + blo ≤ j' + 1)) :
    ∀ (js : List Nat) (fAcc : Nat → Nat) (bi bj bs : Nat),
      (∀ j', fAcc j' ≤ i - alo + 1 ∧ (0 < fAcc j' → fAcc j' + blo ≤ j' + 1)) →
      alo ≤ bi → blo ≤ bj → bi + bs ≤ ahi → bj + bs ≤ bhi →
      ∀ f' bi' bj' bs',
        flmInner blo bhi fOld i js fAcc (bi, bj, bs) = (f', (bi', bj', bs')) →
        (∀ j', f' j' ≤ i - alo + 1 ∧ (0 < f' j' → f' j' + blo ≤ j' + 1)) ∧
        alo ≤ bi' ∧ blo ≤ bj' ∧ bi' + bs' ≤ ahi ∧ bj' + bs' ≤ bhi := by
  intro js
  induction js with
  | nil =>
    intro fAcc bi bj bs hAcc h1 h2 h3 h4 f' bi' bj' bs' heq
    cases heq
    exact ⟨hAcc, h1, h2, h3, h4⟩
  | cons j js ih =>
    intro fAcc bi bj bs hAcc h1 h2 h3 h4 f' bi' bj' bs' heq
    rw [flmInner] at heq
    by_cases hjlo : j < blo
    · rw [if_pos hjlo] at heq
      exact ih fAcc bi bj bs hAcc h1 h2 h3 h4 f' bi' bj' bs' heq
    · rw [if_neg hjlo] at heq
      by_cases hjhi : bhi ≤ j
      · rw [if_pos hjhi] at heq
        cases heq
        exact ⟨hAcc, h1, h2, h3, h4⟩
      · rw [if_neg hjhi] at heq
        simp only [] at heq
        have hk1 : (if j = 0 then 0 else fOld (j - 1)) + 1 ≤ i - alo + 1 := by
          by_cases hj0 : j = 0
          · rw [if_pos hj0]; omega
          · rw [if_neg hj0]; have := (hOld (j - 1)).1; omega
        have hk2 : (if j = 0 then 0 else fOld (j - 1)) + 1 + blo ≤ j + 1 := by
          by_cases hj0 : j = 0
          · rw [if_pos hj0]; omega
          · rw [if_neg hj0]
            by_cases hp : 0 < fOld (j - 1)
            · have := (hOld (j - 1)).2 hp; omega
            · have : fOld (j - 1) = 0 := by omega
              rw [this]; omega
        have hAcc' : ∀ j',
            (if j' = j then (if j = 0 then 0 else fOld (j - 1)) + 1 else fAcc j') ≤ i - alo + 1 ∧
            (0 < (if j' = j then (if j = 0 then 0 else fOld (j - 1)) + 1 else fAcc j') →
              (if j' = j then (if j = 0 then 0 else fOld (j - 1)) + 1 else fAcc j') + blo ≤
                j' + 1) := by
          intro j'
          by_cases hjj : j' = j
          · rw [if_pos hjj]; exact ⟨hk1, fun _ => by omega⟩
          · rw [if_neg hjj]; exact hAcc j'
        by_cases hbs : bs < (if j = 0 then 0 else fOld (j - 1)) + 1
        · rw [if_pos hbs] at heq
          exact ih _ _ _ _ hAcc' (by omega) (by omega) (by omega) (by omega)
            f' bi' bj' bs' heq
        · rw [if_neg hbs] at heq
          exact ih _ _ _ _ hAcc' h1 h2 h3 h4 f' bi' bj' bs' heq

/-- The outer DP loop over `range'` keeps the best block inside the
window. -/
theorem flmLoop_bounds (a : List Char) (tb : Char → List Nat) (blo bhi alo ahi : Nat) :
    ∀ (n s : Nat) (f : Nat → Nat) (bi bj bs : Nat),
      alo ≤ s → s + n ≤ ahi →
      (∀ j', f j' ≤ s - alo ∧ (0 < f j' → f j' + blo ≤ j' + 1)) →
      alo ≤ bi → blo ≤ bj → bi + bs ≤ ahi → bj + bs ≤ bhi →
      ∀ f' bi' bj' bs',
        flmLoop a tb blo bhi (List.range' s n) (f, (bi, bj, bs)) = (f', (bi', bj', bs')) →
        alo ≤ bi' ∧ blo ≤ bj' ∧ bi' + bs' ≤ ahi ∧ bj' + bs' ≤ bhi := by
  intro n
  induction n with
  | zero =>
    intro s f bi bj bs _ _ _ h1 h2 h3 h4 f' bi' bj' bs' heq
    rw [List.range'] at heq
    rw [flmLoop] at heq
    cases heq
    exact ⟨h1, h2, h3, h4⟩
  | succ n ihn =>
    intro s f bi bj bs hs hsn hf h1 h2 h3 h4 f' bi' bj' bs' heq
    rw [List.range'] at heq
    rw [flmLoop] at heq
    simp only [] at heq
    cases hst : flmInner blo bhi f s (tb (a.getD s ' ')) (fun _ => 0) (bi, bj, bs) with
    | mk f2 best2 =>
      obtain ⟨b2i, b2j, b2s⟩ := best2
      have hmid := flmInner_bounds blo bhi f s alo ahi hs (by omega) hf
        (tb (a.getD s ' ')) (fun _ => 0) bi bj bs
        (fun j' => ⟨Nat.zero_le _, fun hcon => absurd hcon (lt_irrefl 0)⟩)
        h1 h2 h3 h4 f2 b2i b2j b2s hst
      rw [hst] at heq
      refine ihn (s + 1) f2 b2i b2j b2s (by omega) (by omega) ?_
        hmid.2.1 hmid.2.2.1 hmid.2.2.2.1 hmid.2.2.2.2 f' bi' bj' bs' heq
      intro j'
      have := hmid.1 j'
      exact ⟨by omega, this.2⟩

/-- The left extension pass keeps the block inside the window. -/
theorem extendLeft_bounds (a b : List Char) (alo blo : Nat) :
    ∀ (fuel bi bj bs ahi bhi : Nat),
      alo ≤ bi → blo ≤ bj → bi + bs ≤ ahi → bj + bs ≤ bhi →
      ∀ bi' bj' bs', extendLeft a b alo blo fuel (bi, bj, bs) = (bi', bj', bs') →
        alo ≤ bi' ∧ blo ≤ bj' ∧ bi' + bs' ≤ ahi ∧ bj' + bs' ≤ bhi := by
  intro fuel
  induction fuel with
  | zero =>
    intro bi bj bs ahi bhi h1 h2 h3 h4 bi' bj' bs' heq
    cases heq
    exact ⟨h1, h2, h3, h4⟩
  | succ fuel ih =>
    intro bi bj bs ahi bhi h1 h2 h3 h4 bi' bj' bs' heq
    rw [extendLeft] at heq
    by_cases hc : alo < bi ∧ blo < bj ∧ chEq a b (bi - 1) (bj - 1) = true
    · rw [if_pos hc] at heq
      exact ih (bi - 1) (bj - 1) (bs + 1) ahi bhi (by omega) (by omega) (by omega) (by omega)
        bi' bj' bs' heq
    · rw [if_neg hc] at heq
      cases heq
      exact ⟨h1, h2, h3, h4⟩

/-- The right extension pass keeps the block inside the window. -/
theorem extendRight_bounds (a b : List Char) (ahi bhi : Nat) :
    ∀ (fuel bi bj bs alo blo : Nat),
      alo ≤ bi → blo ≤ bj → bi + bs ≤ ahi → bj + bs ≤ bhi →
      ∀ bi' bj' bs', extendRight a b ahi bhi fuel (bi, bj, bs) = (bi', bj', bs') →
        alo ≤ bi' ∧ blo ≤ bj' ∧ bi' + bs' ≤ ahi ∧ bj' + bs' ≤ bhi := by
  intro fuel
  induction fuel with
  | zero =>
    intro bi bj bs alo blo h1 h2 h3 h4 bi' bj' bs' heq
    cases heq
    exact ⟨h1, h2, h3, h4⟩
  | succ fuel ih =>
    intro bi bj bs alo blo h1 h2 h3 h4 bi' bj' bs' heq
    rw [extendRight] at heq
    by_cases hc : bi + bs < ahi ∧ bj + bs < bhi ∧ chEq a b (bi + bs) (bj + bs) = true
    · rw [if_pos hc] at heq
      exact ih bi bj (bs + 1) alo blo h1 h2 (by omega) (by omega) bi' bj' bs' heq
    · rw [if_neg hc] at heq
      cases heq
      exact ⟨h1, h2, h3, h4⟩

/-- `find_longest_match` returns a block inside its window. -/
theorem findLongestMatch_bounds (a b : List Char) (tb : Char → List Nat)
    (alo ahi blo bhi : Nat) (hab : alo ≤ ahi) (hbb : blo ≤ bhi) :
    ∀ i j k, findLongestMatch a b tb alo ahi blo bhi = (i, j, k) →
      alo ≤ i ∧ blo ≤ j ∧ i + k ≤ ahi ∧ j + k ≤ bhi := by
  intro i j k heq
  unfold findLongestMatch at heq
  cases hst : flmLoop a tb blo bhi (List.range' alo (ahi - alo))
      (fun _ => 0, (alo, blo, 0)) with
  | mk f0 best0 =>
    obtain ⟨b0i, b0j, b0s⟩ := best0
    have h0 := flmLoop_bounds a tb blo bhi alo ahi (ahi - alo) alo (fun _ => 0)
      alo blo 0 (Nat.le_refl alo) (by omega)
      (fun j' => ⟨Nat.zero_le _, fun hcon => absurd hcon (lt_irrefl 0)⟩)
      (Nat.le_refl alo) (Nat.le_refl blo) (by omega) (by omega)
      f0 b0i b0j b0s hst
    rw [hst] at heq
    simp only [] at heq
    cases hl : extendLeft a b alo blo b0i (b0i, b0j, b0s) with
    | mk l1i lrest =>
      obtain ⟨l1j, l1s⟩ := lrest
      have hle := extendLeft_bounds a b alo blo b0i b0i b0j b0s ahi bhi
        h0.1 h0.2.1 h0.2.2.1 h0.2.2.2 l1i l1j l1s hl
      rw [hl] at heq
      simp only [] at heq
      exact extendRight_bounds a b ahi bhi (ahi - (l1i + l1s)) l1i l1j l1s alo blo
        hle.1 hle.2.1 hle.2.2.1 hle.2.2.2 i j k heq

/-- The fuel of `matchTotalF` is irrelevant once it exceeds the measure
`ahi - alo`, which every recursive call strictly decreases. -/
theorem matchTotalF_fuel_eq (a b : List Char) (tb : Char → List Nat) :
    ∀ fuel1 fuel2 alo ahi blo bhi, ahi - alo < fuel1 → ahi - alo < fuel2 →
      matchTotalF a b tb fuel1 alo ahi blo bhi = matchTotalF a b tb fuel2 alo ahi blo bhi := by
  intro fuel1
  induction fuel1 with
  | zero =>
    intro fuel2 alo ahi blo bhi hf1 _
    exact absurd hf1 (Nat.not_lt_zero _)
  | succ g ih =>
    intro fuel2 alo ahi blo bhi hf1 hf2
    cases fuel2 with
    | zero => exact absurd hf2 (Nat.not_lt_zero _)
    | succ g2 =>
      rw [matchTotalF, matchTotalF]
      cases hm : findLongestMatch a b tb alo ahi blo bhi with
      | mk i jk =>
        obtain ⟨j, k⟩ := jk
        simp only []
        by_cases hk : 0 < k
        · rw [if_pos hk, if_pos hk]
          have e1 : (if alo < i ∧ i < ahi ∧ blo < j then matchTotalF a b tb g alo i blo j else 0) =
              (if alo < i ∧ i < ahi ∧ blo < j then matchTotalF a b tb g2 alo i blo j else 0) := by
            by_cases hc : alo < i ∧ i < ahi ∧ blo < j
            · rw [if_pos hc, if_pos hc, ih g2 alo i blo j (by omega) (by omega)]
            · rw [if_neg hc, if_neg hc]
          have e2 : (if i + k < ahi ∧ alo < i + k ∧ j + k < bhi then
                matchTotalF a b tb g (i + k) ahi (j + k) bhi else 0) =
              (if i + k < ahi ∧ alo < i + k ∧ j + k < bhi then
                matchTotalF a b tb g2 (i + k) ahi (j + k) bhi else 0) := by
            by_cases hc : i + k < ahi ∧ alo < i + k ∧ j + k < bhi
            · rw [if_pos hc, if_pos hc, ih g2 (i + k) ahi (j + k) bhi (by omega) (by omega)]
            · rw [if_neg hc, if_neg hc]
          rw [e1, e2]
        · rw [if_neg hk, if_neg hk]

/-- `matchTotal` satisfies the verbatim recurrence of difflib's
`get_matching_blocks`: total of the longest block plus the totals of the
two flanking sub-windows, with difflib's own recursion conditions
`alo < i and blo < j` / `i+k < ahi and j+k < bhi`. -/
theorem matchTotal_recurrence (a b : List Char) (tb : Char → List Nat)
    (alo ahi blo bhi : Nat) (hab : alo ≤ ahi) (hbb : blo ≤ bhi) :
    matchTotal a b tb alo ahi blo bhi =
      (match findLongestMatch a b tb alo ahi blo bhi with
        | (i, j, k) =>
          if 0 < k then
            k + (if alo < i ∧ blo < j then matchTotal a b tb alo i blo j else 0)
              + (if i + k < ahi ∧ j + k < bhi then
                   matchTotal a b tb (i + k) ahi (j + k) bhi else 0)
          else 0) := by
  cases hm : findLongestMatch a b tb alo ahi blo bhi with
  | mk i jk =>
    obtain ⟨j, k⟩ := jk
    have hb := findLongestMatch_bounds a b tb alo ahi blo bhi hab hbb i j k hm
    show matchTotalF a b tb (ahi - alo + 1) alo ahi blo bhi = _
    rw [matchTotalF]
    simp only [hm]
    by_cases hk : 0 < k
    · rw [if_pos hk, if_pos hk]
      have e1 : (if alo < i ∧ i < ahi ∧ blo < j then
            matchTotalF a b tb (ahi - alo) alo i blo j else 0) =
          (if alo < i ∧ blo < j then matchTotal a b tb alo i blo j else 0) := by
        by_cases hc : alo < i ∧ blo < j
        · rw [if_pos (show alo < i ∧ i < ahi ∧ blo < j by omega), if_pos hc]
          exact matchTotalF_fuel_eq a b tb (ahi - alo) (i - alo + 1) alo i blo j
            (by omega) (by omega)
        · rw [if_neg (fun hcon => hc ⟨hcon.1, hcon.2.2⟩), if_neg hc]
      have e2 : (if i + k < ahi ∧ alo < i + k ∧ j + k < bhi then
            matchTotalF a b tb (ahi - alo) (i + k) ahi (j + k) bhi else 0) =
          (if i + k < ahi ∧ j + k < bhi then matchTotal a b tb (i + k) ahi (j + k) bhi else 0) := by
        by_cases hc : i + k < ahi ∧ j + k < bhi
        · rw [if_pos (show i + k < ahi ∧ alo < i + k ∧ j + k < bhi by omega), if_pos hc]
          exact matchTotalF_fuel_eq a b tb (ahi - alo) (ahi - (i + k) + 1) (i + k) ahi (j + k) bhi
            (by omega) (by omega)
        · rw [if_neg (fun hcon => hc ⟨hcon.1, hcon.2.2⟩), if_neg hc]
      rw [e1, e2]
    · rw [if_neg hk, if_neg hk]

end NodeTools
